import Mathlib

/-!
Verification of the go-httprange repository: a Lean shallow embedding of the
range-based HTTP reader (httpreadat.go) and the parallel chunked downloader
(down.go), together with theorems about the behaviour the design document
ascribes to them.

Modelling conventions:
* Go `int64` values are modelled as `Int`; the few places where 64-bit
  overflow matters (strconv.ParseInt) carry an explicit range check against
  2^63.
* Go strings are Lean `String`s; the character-level helpers below mirror
  `strings.Split` (single-character separators, which is all the source
  uses) and `strconv.ParseInt(s, 10, 64)`.
* The HTTP transport (the `Requester` interface of client.go) is an
  abstract function from the Range-request bounds to an optional response;
  `none` models a transport error.  The outbound header rendering
  `fmt.Sprintf("bytes=%d-%d", first, last)` is an injective encoding of the
  bounds, so the transport is given the bounds directly.
* Fallible Go paths return `Option`/`Except`; `panic` outcomes (negative
  `make` sizes) are modelled by a dedicated constructor.
-/

/-- A byte, 0..255 inside the lists we build; the value range is irrelevant
to the verified properties so plain `Nat` is used. -/
abbrev Byte := Nat

/-! ## Character and integer primitives (strconv.ParseInt, strings.Split) -/

/-- The numeric value of a decimal digit character, if it is one. -/
def charDigit (c : Char) : Option Nat :=
  if '0' ≤ c ∧ c ≤ '9' then some (c.toNat - '0'.toNat) else none

/-- The character for a decimal digit value. -/
def digitChar (d : Nat) : Char :=
  Char.ofNat ('0'.toNat + d)

/-- Accumulating decimal evaluation of a digit string, left to right;
fails on the first non-digit. -/
def digitsAcc : List Char → Nat → Option Nat
  | [], acc => some acc
  | c :: cs, acc =>
    match charDigit c with
    | none => none
    | some d => digitsAcc cs (acc * 10 + d)

/-- Decimal evaluation of a non-empty digit string. -/
def parseDigits (l : List Char) : Option Nat :=
  match l with
  | [] => none
  | _ :: _ => digitsAcc l 0

/-- The signed 64-bit range check performed by strconv.ParseInt with
bitSize 64. -/
def int64InRange (v : Int) : Option Int :=
  if -(2 ^ 63) ≤ v ∧ v ≤ 2 ^ 63 - 1 then some v else none

/-- Model of Go strconv.ParseInt(s, 10, 64): an optional single leading
sign, then at least one decimal digit, value within the int64 range. -/
def goParseInt (l : List Char) : Option Int :=
  match l with
  | [] => none
  | c :: rest =>
    if c = '+' then (parseDigits rest).bind fun v => int64InRange (v : Int)
    else if c = '-' then (parseDigits rest).bind fun v => int64InRange (-(v : Int))
    else (parseDigits (c :: rest)).bind fun v => int64InRange (v : Int)

/-- Model of Go strings.Split for a single-character separator: splits at
every occurrence, `goSplit sep "" = [""]`. -/
def goSplit (sep : Char) : List Char → List (List Char)
  | [] => [[]]
  | c :: rest =>
    if c = sep then [] :: goSplit sep rest
    else
      match goSplit sep rest with
      | [] => [[c]]
      | h :: t => (c :: h) :: t

/-! ## parseContentRange (down.go) -/

/-- Character-level body of `parseContentRange` (down.go).  Mirrors the Go
control flow: split on a space and require the literal `bytes`; split the
remainder on a slash into range side and length side; the length side is
either `*` (length stays -1) or a ParseInt integer; the range side is
either `*` (first and last stay -1) or two ParseInt integers split on a
dash; finally reject the all-unknown triple (-1, -1, -1).  `none` models
the Go `errParse` return. -/
def parseCR (s : List Char) : Option (Int × Int × Int) :=
  match goSplit ' ' s with
  | [w, rest] =>
    if w = "bytes".data then
      match goSplit '/' rest with
      | [rangeSide, lenSide] =>
        match (if lenSide = ['*'] then some (-1 : Int) else goParseInt lenSide) with
        | none => none
        | some length =>
          match
            (if rangeSide = ['*'] then some ((-1 : Int), (-1 : Int))
             else
               match goSplit '-' rangeSide with
               | [fs, ls] =>
                 match goParseInt fs, goParseInt ls with
                 | some f, some l => some (f, l)
                 | _, _ => none
               | _ => none) with
          | none => none
          | some (first, last) =>
            if first = -1 ∧ last = -1 ∧ length = -1 then none
            else some (first, last, length)
      | _ => none
    else none
  | _ => none

/-- `parseContentRange` (down.go): parse a Content-Range header value into
(first, last, length); `none` is the parse error. -/
def parseContentRange (s : String) : Option (Int × Int × Int) :=
  parseCR s.data

example : parseContentRange "bytes 42-1233/1234" = some (42, 1233, 1234) := by decide
example : parseContentRange "bytes 42-1233/*" = some (42, 1233, -1) := by decide
example : parseContentRange "bytes */1234" = some (-1, -1, 1234) := by decide
example : parseContentRange "garbage" = none := by decide
example : parseContentRange "bytes 42-1233" = none := by decide
example : parseContentRange "bytes -/-" = none := by decide
example : parseContentRange "bytes */*" = none := by decide
example : parseContentRange "bytes 0-0/-5" = some (0, 0, -5) := by decide

/-! ## Responses, metadata, the reader (httpreadat.go, down.go) -/

/-- The parts of an http.Response the source consumes: the status code,
the ContentLength field, the four headers it reads (a header absent from
the response is the empty string, matching Go's `Header.Get`), and the
body bytes. -/
structure Response where
  statusCode : Nat
  contentLength : Int
  contentRange : String
  lastModified : String
  etag : String
  contentType : String
  body : List Byte
deriving DecidableEq, Repr

/-- `Meta` (down.go): the metadata snapshot of a resource.  Go's field
`end` is called `endPos` here (`end` is a Lean keyword). -/
structure Meta where
  start : Int
  endPos : Int
  size : Int
  lastModified : String
  etag : String
  contentType : String
deriving DecidableEq, Repr

/-- The error taxonomy of the source, one constructor per distinct Go
error value or errors.New/fmt.Errorf site reachable in the model:
`eof` is io.EOF, `transport` a Requester.Do failure, `probeStatus` the
non-206 error of init, `noRange` the non-206 ErrNoRange of ReadAt,
`metaParse` is errParse escaping getMeta, `validation` is
ErrValidationFailed, `rangeMismatch` the received-different-range error,
`lengthMismatch` the content-length mismatch error, `sizeMismatch` the
short-download error of readChunk. -/
inductive GErr where
  | eof
  | transport
  | probeStatus
  | noRange
  | metaParse
  | validation
  | rangeMismatch
  | lengthMismatch
  | sizeMismatch
deriving DecidableEq, Repr

/-- `getMeta` (down.go): build a `Meta` from a response.  The snapshot
starts as start=-1, end=-1, size=0 plus the three identity headers; a 200
response takes its ContentLength as size; a 206 response parses its
Content-Range header when one is present (an unparsable header is the
parse error); any other status leaves the initial snapshot. -/
def getMeta (resp : Response) : Except GErr Meta :=
  let meta : Meta :=
    { start := -1, endPos := -1, size := 0,
      lastModified := resp.lastModified, etag := resp.etag,
      contentType := resp.contentType }
  if resp.statusCode = 200 then
    .ok { meta with size := resp.contentLength }
  else if resp.statusCode = 206 then
    if resp.contentRange ≠ "" then
      match parseContentRange resp.contentRange with
      | none => .error .metaParse
      | some (f, l, len) => .ok { meta with start := f, endPos := l, size := len }
    else .ok meta
  else .ok meta

/-- The transport capability (`Requester` of client.go) specialised to the
requests the source issues: it receives the inclusive Range bounds that
ReadAt formats as `bytes=first-last` and yields a response, or `none` for
a transport error. -/
abbrev Client := Int → Int → Option Response

/-- `HTTPReaderAt` (httpreadat.go): the transport plus the metadata
snapshot cached by the construction-time probe.  The request prototype is
folded into `client` (its only varying part is the Range header). -/
structure HTTPReaderAt where
  client : Client
  meta : Meta

/-- `Size` (httpreadat.go): the cached resource length. -/
def HTTPReaderAt.Size (ra : HTTPReaderAt) : Int :=
  ra.meta.size

/-- `New` (httpreadat.go): construct a reader by probing with
`Range: bytes=0-0`, requiring 206 Partial Content and extracting the
metadata snapshot.  The nil-argument and non-GET construction errors are
not representable here: the client is a total function and the method is
fixed to GET by `Do`'s request construction. -/
def New (client : Client) : Except GErr HTTPReaderAt :=
  match client 0 0 with
  | none => .error .transport
  | some resp =>
    if resp.statusCode ≠ 206 then .error .probeStatus
    else
      match getMeta resp with
      | .error e => .error e
      | .ok m => .ok ⟨client, m⟩

/-- The outcome of one ReadAt call: bytes read, the error (if any), the
final contents of the caller's buffer, and whether an HTTP request was
issued. -/
structure ReadResult where
  n : Nat
  err : Option GErr
  buf : List Byte
  requested : Bool
deriving DecidableEq, Repr

/-- The part of `ReadAt` (httpreadat.go) after range clamping: execute the
request for the inclusive bounds, require 206, extract and validate the
metadata against the cached snapshot, check the response range bounds and
ContentLength, then read the body into the buffer like io.ReadFull does
(an incomplete body, ErrUnexpectedEOF in Go, is converted to io.EOF; a
byte count differing from ContentLength is logged, not an error); finally
a clamped request upgrades a nil error to the remembered io.EOF. -/
def doRangeRequest (ra : HTTPReaderAt) (p : List Byte) (reqFirst reqLast : Int)
    (returnErr : Option GErr) : ReadResult :=
  match ra.client reqFirst reqLast with
  | none => ⟨0, some .transport, p, true⟩
  | some resp =>
    if resp.statusCode ≠ 206 then ⟨0, some .noRange, p, true⟩
    else
      match getMeta resp with
      | .error e => ⟨0, some e, p, true⟩
      | .ok meta =>
        if ra.meta.size ≠ meta.size ∨ ra.meta.lastModified ≠ meta.lastModified ∨
            ra.meta.etag ≠ meta.etag then
          ⟨0, some .validation, p, true⟩
        else if meta.start ≠ reqFirst ∨ meta.endPos > reqLast then
          ⟨0, some .rangeMismatch, p, true⟩
        else if resp.contentLength ≠ meta.endPos - meta.start + 1 then
          ⟨0, some .lengthMismatch, p, true⟩
        else
          let n := min resp.body.length p.length
          let buf2 := resp.body.take n ++ p.drop n
          let err0 : Option GErr := if n = p.length then none else some .eof
          ⟨n, if err0 = none then returnErr else err0, buf2, true⟩

/-- `ReadAt` (httpreadat.go): an empty buffer returns immediately; when
the cached size is known and the requested end passes size-1 the range is
clamped (remembering io.EOF for the final result) and, if the clamped
range is empty, 0 bytes and io.EOF are returned without a request;
otherwise the clamped window of the buffer is handed to the request path
(Go reslices `p = p[:reqLast-reqFirst+1]`; the caller's bytes past the
window are untouched and reattached here). -/
def HTTPReaderAt.ReadAt (ra : HTTPReaderAt) (p : List Byte) (off : Int) : ReadResult :=
  if p.length = 0 then ⟨0, none, p, false⟩
  else
    let reqFirst := off
    let reqLast := off + (p.length : Int) - 1
    if ra.meta.size ≠ -1 ∧ reqLast > ra.meta.size - 1 then
      let reqLastC := ra.meta.size - 1
      if reqLastC < reqFirst then ⟨0, some .eof, p, false⟩
      else
        let k := (reqLastC - reqFirst + 1).toNat
        let r := doRangeRequest ra (p.take k) reqFirst reqLastC (some .eof)
        ⟨r.n, r.err, r.buf ++ p.drop k, r.requested⟩
    else
      doRangeRequest ra p reqFirst reqLast none

/-! ## The chunked downloader (down.go) -/

/-- `memoryTaskType` (down.go): a chunk task carrying its offset and the
window of the destination buffer it fills (here by value: the enclosing
`Do` model reattaches the filled window at the task's offset). -/
structure MemoryTask where
  offset : Int
  content : List Byte
deriving DecidableEq, Repr

/-- `fileTaskType` (down.go): a chunk task carrying offset and size only. -/
structure FileTask where
  offset : Int
  size : Int
deriving DecidableEq, Repr

/-- Go's truncated (toward zero) integer division, the `/` of int64. -/
def goQuo (a b : Int) : Int := Int.tdiv a b

/-- Go's truncated integer remainder, the `%` of int64. -/
def goRem (a b : Int) : Int := Int.tmod a b

/-- Go slicing `buf[a:b]`: defined when 0 ≤ a ≤ b ≤ len(buf), a panic
(`none`) otherwise. -/
def goSlice (buf : List Byte) (a b : Int) : Option (List Byte) :=
  if 0 ≤ a ∧ a ≤ b ∧ b ≤ (buf.length : Int) then
    some ((buf.drop a.toNat).take (b - a).toNat)
  else none

/-- `makeMemoryTask` (down.go): floor(totalSize/65536) full 64 KiB chunks
whose contents are the windows `buf[offset : offset+chunkSize]`, then,
when the running offset has not reached totalSize, one trailing task with
window `buf[offset : totalSize]`.  `none` models the panics of a negative
`make` count or an out-of-bounds slice. -/
def makeMemoryTask (totalSize : Int) (buf : List Byte) : Option (List MemoryTask) :=
  let chunkSize : Int := 64 * 1024
  let taskCount := goQuo totalSize chunkSize
  if taskCount < 0 then none
  else
    ((List.range taskCount.toNat).mapM fun (i : Nat) =>
        (goSlice buf (chunkSize * i) (chunkSize * i + chunkSize)).map
          fun c => MemoryTask.mk (chunkSize * i) c).bind
      fun full =>
        let offset := chunkSize * taskCount
        if offset < totalSize then
          (goSlice buf offset totalSize).bind fun tail => some (full ++ [⟨offset, tail⟩])
        else some full

/-- `makeFileTask` (down.go): the same chunk plan with offset/size pairs
(the channel plumbing is dropped; the task list is what fills it).
`none` models the panic of a negative `make` count. -/
def makeFileTask (totalSize : Int) : Option (List FileTask) :=
  let chunkSize : Int := 64 * 1024
  let taskCount := goQuo totalSize chunkSize
  if taskCount < 0 then none
  else
    let full := (List.range taskCount.toNat).map fun (i : Nat) =>
      FileTask.mk (chunkSize * i) chunkSize
    let offset := chunkSize * taskCount
    if offset < totalSize then some (full ++ [⟨offset, totalSize - offset⟩])
    else some full

/-- `readChunk` (down.go): one chunk read through a derived reader (the
derived reader shares the client and the cached metadata; its one-minute
timeout is a real-time concern outside this model).  Any ReadAt error,
io.EOF included, aborts the chunk; a byte count short of the task size is
the size-mismatch error. -/
def readChunk (preReader : HTTPReaderAt) (task : MemoryTask) : Except GErr (List Byte) :=
  let r := preReader.ReadAt task.content task.offset
  match r.err with
  | some e => .error e
  | none =>
    if r.n = task.content.length then .ok r.buf
    else .error .sizeMismatch

/-- Overwrite `bytes.length` bytes of `buf` at `off`: the effect of a
worker filling its window `buf[off : off+len]` of the shared buffer. -/
def writeAt (buf : List Byte) (off : Int) (bytes : List Byte) : List Byte :=
  buf.take off.toNat ++ bytes ++ buf.drop (off.toNat + bytes.length)

/-- The worker pool of `Do`, linearised: each task is read via `readChunk`
and its filled window written back at its offset; the first error wins and
aborts the rest, exactly the first-error-cancels-siblings outcome of the
errgroup (completion order cannot change the result since the windows are
pairwise disjoint). -/
def runTasks (preReader : HTTPReaderAt) : List MemoryTask → List Byte → Except GErr (List Byte)
  | [], buf => .ok buf
  | t :: ts, buf =>
    match readChunk preReader t with
    | .error e => .error e
    | .ok bytes => runTasks preReader ts (writeAt buf t.offset bytes)

/-- The three outcomes of the buffer-mode download: a buffer, an error
(with no buffer), or a runtime panic. -/
inductive DoOut where
  | ok (buf : List Byte)
  | fail (e : GErr)
  | panic
deriving DecidableEq, Repr

/-- `Do` (down.go), buffer mode: probe via `New`, take the cached size,
allocate the destination buffer with `make([]byte, totalSize, totalSize)`
(a Go panic when totalSize is negative), plan the memory tasks and run the
workers over them; on success the filled buffer is returned, on the first
error a nil buffer and that error. -/
def Do (client : Client) : DoOut :=
  match New client with
  | .error e => .fail e
  | .ok preRead =>
    let totalSize := preRead.Size
    if totalSize < 0 then .panic
    else
      let buf := List.replicate totalSize.toNat 0
      match makeMemoryTask totalSize buf with
      | none => .panic
      | some taskList =>
        match runTasks preRead taskList buf with
        | .error e => .fail e
        | .ok b => .ok b

/-! ## Reference clients and the sequential-read specification -/

/-- Decimal rendering of a natural number. -/
def renderNat (n : Nat) : List Char :=
  if n = 0 then ['0'] else (Nat.digits 10 n).reverse.map digitChar

/-- Decimal rendering of an integer (minus sign for negatives). -/
def renderInt (i : Int) : List Char :=
  if i < 0 then '-' :: renderNat (-i).toNat else renderNat i.toNat

/-- Render a `Content-Range: bytes first-last/length` header value. -/
def renderCR (first last length : Int) : String :=
  ⟨"bytes ".data ++ renderInt first ++ ['-'] ++ renderInt last ++ ['/'] ++ renderInt length⟩

/-- A transport that honors Range requests over a fixed resource with
stable metadata: a satisfiable request (first within the resource, first ≤
last) is answered with 206, the clamped inclusive range, its Content-Range
header and exactly the requested bytes; anything else gets a 416. -/
def honestClient (content : List Byte) (lm et ct : String) : Client := fun f l =>
  let T : Int := content.length
  if 0 ≤ f ∧ f ≤ l ∧ f < T then
    let lC := min l (T - 1)
    some { statusCode := 206, contentLength := lC - f + 1,
           contentRange := renderCR f lC T,
           lastModified := lm, etag := et, contentType := ct,
           body := (content.drop f.toNat).take (lC - f + 1).toNat }
  else
    some { statusCode := 416, contentLength := 0, contentRange := "",
           lastModified := lm, etag := et, contentType := ct, body := [] }

/-- A transport whose resource mutates after the probe: the probe request
(bytes=0-0) sees ETag `et1`, every other request sees `et2`. -/
def mutatingClient (content : List Byte) (lm et1 et2 ct : String) : Client := fun f l =>
  if f = 0 ∧ l = 0 then honestClient content lm et1 ct f l
  else honestClient content lm et2 ct f l

/-- Sequential single-shot ranged reads, modelled from the spec: read
windows of the given sizes one after another starting at `off`, each via
one `ReadAt` into a fresh zero buffer, and concatenate the bytes
byte-for-byte; any read error refuses a result. -/
def seqReadsFrom (ra : HTTPReaderAt) (off : Int) : List Nat → Option (List Byte)
  | [] => some []
  | s :: rest =>
    let r := ra.ReadAt (List.replicate s 0) off
    match r.err with
    | some _ => none
    | none => (seqReadsFrom ra (off + (r.n : Int)) rest).map fun tl => r.buf ++ tl

/-! ## Decimal rendering round-trips through the Go integer parser -/

lemma charDigit_digitChar (d : Nat) (hd : d < 10) : charDigit (digitChar d) = some d := by
  interval_cases d <;> decide

lemma digitChar_bounds (d : Nat) (hd : d < 10) :
    48 ≤ (digitChar d).toNat ∧ (digitChar d).toNat ≤ 57 := by
  interval_cases d <;> decide

lemma mem_renderNat_bounds (n : Nat) :
    ∀ c ∈ renderNat n, 48 ≤ c.toNat ∧ c.toNat ≤ 57 := by
  intro c hc
  unfold renderNat at hc
  split at hc
  · simp only [List.mem_singleton] at hc
    subst hc; decide
  · obtain ⟨d, hd, rfl⟩ := List.mem_map.mp hc
    exact digitChar_bounds d
      (Nat.digits_lt_base (by norm_num) (List.mem_reverse.mp hd))

lemma renderNat_ne_nil (n : Nat) : renderNat n ≠ [] := by
  unfold renderNat
  split
  · simp
  · simp [Nat.digits_ne_nil_iff_ne_zero, *]

lemma digitsAcc_append (l1 l2 : List Char) :
    ∀ acc, digitsAcc (l1 ++ l2) acc =
      match digitsAcc l1 acc with
      | none => none
      | some v => digitsAcc l2 v := by
  induction l1 with
  | nil => intro acc; rfl
  | cons c cs ih =>
    intro acc
    simp only [List.cons_append, digitsAcc]
    cases h : charDigit c with
    | none => rfl
    | some d => exact ih _

lemma digitsAcc_rev_digits (ds : List Nat) (h : ∀ d ∈ ds, d < 10) :
    ∀ acc, digitsAcc (ds.reverse.map digitChar) acc =
      some (acc * 10 ^ ds.length + Nat.ofDigits 10 ds) := by
  induction ds with
  | nil => intro acc; simp [digitsAcc, Nat.ofDigits]
  | cons d tl ih =>
    intro acc
    have htl : ∀ x ∈ tl, x < 10 := fun x hx => h x (List.mem_cons_of_mem _ hx)
    have hd : d < 10 := h d (List.mem_cons_self _ _)
    simp only [List.reverse_cons, List.map_append, digitsAcc_append, ih htl]
    simp only [List.map_cons, List.map_nil, digitsAcc, charDigit_digitChar d hd]
    rw [Nat.ofDigits_cons]
    simp only [List.length_cons, pow_succ]
    ring_nf

lemma parseDigits_renderNat (n : Nat) : parseDigits (renderNat n) = some n := by
  by_cases h0 : n = 0
  · subst h0; decide
  · obtain ⟨c, rest, hcr⟩ := List.exists_cons_of_ne_nil (renderNat_ne_nil n)
    have : parseDigits (renderNat n) = digitsAcc (renderNat n) 0 := by
      rw [hcr]; rfl
    rw [this]
    have hrn : renderNat n = (Nat.digits 10 n).reverse.map digitChar := by
      unfold renderNat; simp [h0]
    rw [hrn, digitsAcc_rev_digits _ (fun d hd => Nat.digits_lt_base (by norm_num) hd)]
    simp [Nat.ofDigits_digits]

lemma goParseInt_renderNat (n : Nat) (hn : (n : Int) ≤ 2 ^ 63 - 1) :
    goParseInt (renderNat n) = some (n : Int) := by
  obtain ⟨c, rest, hcr⟩ := List.exists_cons_of_ne_nil (renderNat_ne_nil n)
  have hc : 48 ≤ c.toNat ∧ c.toNat ≤ 57 :=
    mem_renderNat_bounds n c (by rw [hcr]; exact List.mem_cons_self _ _)
  have hplus : c ≠ '+' := by
    intro h; rw [h] at hc; revert hc; decide
  have hminus : c ≠ '-' := by
    intro h; rw [h] at hc; revert hc; decide
  rw [hcr]
  simp only [goParseInt, if_neg hplus, if_neg hminus]
  rw [← hcr, parseDigits_renderNat]
  simp only [Option.some_bind, int64InRange]
  rw [if_pos (by omega)]

lemma goParseInt_renderInt (i : Int) (hlo : -(2 ^ 63) ≤ i) (hhi : i ≤ 2 ^ 63 - 1) :
    goParseInt (renderInt i) = some i := by
  unfold renderInt
  split
  · rename_i hneg
    have hm : ((-i).toNat : Int) = -i := Int.toNat_of_nonneg (by omega)
    have hred : goParseInt ('-' :: renderNat (-i).toNat) =
        (parseDigits (renderNat (-i).toNat)).bind fun v => int64InRange (-(v : Int)) := by
      simp [goParseInt]
    rw [hred, parseDigits_renderNat]
    simp only [Option.some_bind, int64InRange]
    rw [hm, if_pos (by omega)]
    congr 1; omega
  · rename_i hpos
    have hm : ((i.toNat : Nat) : Int) = i := Int.toNat_of_nonneg (by omega)
    rw [goParseInt_renderNat i.toNat (by omega), hm]

lemma mem_renderInt_bounds (i : Int) :
    ∀ c ∈ renderInt i, (48 ≤ c.toNat ∧ c.toNat ≤ 57) ∨ c = '-' := by
  intro c hc
  unfold renderInt at hc
  split at hc
  · rcases List.mem_cons.mp hc with h | h
    · right; exact h
    · left; exact mem_renderNat_bounds _ c h
  · left; exact mem_renderNat_bounds _ c hc

lemma space_not_mem_renderInt (i : Int) : ' ' ∉ renderInt i := by
  intro h
  rcases mem_renderInt_bounds i ' ' h with h' | h' <;> revert h' <;> decide

lemma slash_not_mem_renderInt (i : Int) : '/' ∉ renderInt i := by
  intro h
  rcases mem_renderInt_bounds i '/' h with h' | h' <;> revert h' <;> decide

lemma dash_not_mem_renderInt (i : Int) (hi : 0 ≤ i) : '-' ∉ renderInt i := by
  intro h
  unfold renderInt at h
  rw [if_neg (by omega)] at h
  have := mem_renderNat_bounds i.toNat '-' h
  revert this; decide

lemma renderInt_ne_nil (i : Int) : renderInt i ≠ [] := by
  unfold renderInt
  split
  · simp
  · exact renderNat_ne_nil _

lemma renderInt_ne_star (i : Int) : renderInt i ≠ ['*'] := by
  intro h
  have : '*' ∈ renderInt i := by rw [h]; exact List.mem_singleton_self _
  rcases mem_renderInt_bounds i '*' this with h' | h' <;> revert h' <;> decide

/-! ## strings.Split model lemmas -/

lemma goSplit_of_not_mem {sep : Char} {l : List Char} (h : sep ∉ l) :
    goSplit sep l = [l] := by
  induction l with
  | nil => rfl
  | cons c cs ih =>
    have hc : c ≠ sep := fun hcs => h (hcs ▸ List.mem_cons_self _ _)
    have hcs : sep ∉ cs := fun hmem => h (List.mem_cons_of_mem _ hmem)
    simp only [goSplit, if_neg hc, ih hcs]

lemma goSplit_append_cons {sep : Char} {l1 : List Char} (l2 : List Char)
    (h : sep ∉ l1) : goSplit sep (l1 ++ sep :: l2) = l1 :: goSplit sep l2 := by
  induction l1 with
  | nil => simp [goSplit]
  | cons c cs ih =>
    have hc : c ≠ sep := fun hcs => h (hcs ▸ List.mem_cons_self _ _)
    have hcs : sep ∉ cs := fun hmem => h (List.mem_cons_of_mem _ hmem)
    simp only [List.cons_append, goSplit, if_neg hc, List.append_eq]
    rw [ih hcs]

/-- The goSplit of the rendered header on the space: literal token then
the rest. -/
lemma goSplit_renderCR_space (f l t : Int) :
    goSplit ' ' (renderCR f l t).data =
      ["bytes".data, renderInt f ++ '-' :: (renderInt l ++ '/' :: renderInt t)] := by
  have hshape : (renderCR f l t).data =
      "bytes".data ++ ' ' :: (renderInt f ++ '-' :: (renderInt l ++ '/' :: renderInt t)) := by
    show "bytes ".data ++ renderInt f ++ ['-'] ++ renderInt l ++ ['/'] ++ renderInt t = _
    simp
  rw [hshape, goSplit_append_cons _ (by decide), goSplit_of_not_mem]
  intro hmem
  rcases List.mem_append.mp hmem with h | h
  · exact space_not_mem_renderInt f h
  · rcases List.mem_cons.mp h with h | h
    · revert h; decide
    · rcases List.mem_append.mp h with h | h
      · exact space_not_mem_renderInt l h
      · rcases List.mem_cons.mp h with h | h
        · revert h; decide
        · exact space_not_mem_renderInt t h

/-- Rendering a nonnegative triple and parsing it back is the identity:
the round trip through `parseContentRange` used by every model response. -/
lemma parseContentRange_renderCR (f l t : Int)
    (hf0 : 0 ≤ f) (hl0 : 0 ≤ l) (ht0 : 0 ≤ t)
    (hf : f ≤ 2 ^ 63 - 1) (hl : l ≤ 2 ^ 63 - 1) (ht : t ≤ 2 ^ 63 - 1) :
    parseContentRange (renderCR f l t) = some (f, l, t) := by
  have hsl : goSplit '/' (renderInt f ++ '-' :: (renderInt l ++ '/' :: renderInt t)) =
      [renderInt f ++ '-' :: renderInt l, renderInt t] := by
    have hshape : renderInt f ++ '-' :: (renderInt l ++ '/' :: renderInt t) =
        (renderInt f ++ '-' :: renderInt l) ++ '/' :: renderInt t := by simp
    rw [hshape, goSplit_append_cons _, goSplit_of_not_mem (slash_not_mem_renderInt t)]
    intro hmem
    rcases List.mem_append.mp hmem with h | h
    · exact slash_not_mem_renderInt f h
    · rcases List.mem_cons.mp h with h | h
      · revert h; decide
      · exact slash_not_mem_renderInt l h
  have hrs_ne : renderInt f ++ '-' :: renderInt l ≠ ['*'] := by
    intro h
    have hlen : (renderInt f ++ '-' :: renderInt l).length = 1 := by rw [h]; rfl
    have hfne := renderInt_ne_nil f
    simp only [List.length_append, List.length_cons] at hlen
    cases hfl : renderInt f with
    | nil => exact hfne hfl
    | cons a as => rw [hfl] at hlen; simp at hlen; omega
  have hdash : goSplit '-' (renderInt f ++ '-' :: renderInt l) =
      [renderInt f, renderInt l] := by
    rw [goSplit_append_cons _ (dash_not_mem_renderInt f hf0),
      goSplit_of_not_mem (dash_not_mem_renderInt l hl0)]
  unfold parseContentRange parseCR
  rw [goSplit_renderCR_space]
  simp only [hsl, hdash, renderInt_ne_star t, hrs_ne,
    goParseInt_renderInt t (by omega : -(2 ^ 63) ≤ t) ht,
    goParseInt_renderInt f (by omega : -(2 ^ 63) ≤ f) hf,
    goParseInt_renderInt l (by omega : -(2 ^ 63) ≤ l) hl,
    (show f ≠ (-1 : Int) by omega), if_true, if_false, ite_false, ite_true,
    eq_self_iff_true, false_and, and_false, not_false_iff]

/-- Parsing `bytes 0-0/N` for any rendered 64-bit integer N, negative
values included, yields (0, 0, N). -/
lemma parseContentRange_zero_zero (n : Int) (hlo : -(2 ^ 63) ≤ n) (hhi : n ≤ 2 ^ 63 - 1) :
    parseContentRange ⟨"bytes 0-0/".data ++ renderInt n⟩ = some (0, 0, n) := by
  have hspace : goSplit ' ' ("bytes 0-0/".data ++ renderInt n) =
      ["bytes".data, '0' :: '-' :: '0' :: '/' :: renderInt n] := by
    have hshape : "bytes 0-0/".data ++ renderInt n =
        "bytes".data ++ ' ' :: ('0' :: '-' :: '0' :: '/' :: renderInt n) := rfl
    rw [hshape, goSplit_append_cons _ (by decide), goSplit_of_not_mem]
    intro hmem
    rcases List.mem_cons.mp hmem with h | h
    · revert h; decide
    · rcases List.mem_cons.mp h with h | h
      · revert h; decide
      · rcases List.mem_cons.mp h with h | h
        · revert h; decide
        · rcases List.mem_cons.mp h with h | h
          · revert h; decide
          · exact space_not_mem_renderInt n h
  have hsl : goSplit '/' ('0' :: '-' :: '0' :: '/' :: renderInt n) =
      [['0', '-', '0'], renderInt n] := by
    have hshape : '0' :: '-' :: '0' :: '/' :: renderInt n =
        ['0', '-', '0'] ++ '/' :: renderInt n := rfl
    rw [hshape, goSplit_append_cons _ (by decide),
      goSplit_of_not_mem (slash_not_mem_renderInt n)]
  show parseCR _ = _
  unfold parseCR
  rw [hspace]
  simp only [hsl, renderInt_ne_star n, goParseInt_renderInt n hlo hhi,
    (by decide : goSplit '-' ['0', '-', '0'] = [['0'], ['0']]),
    (by decide : goParseInt ['0'] = some 0),
    (by decide : ¬(['0', '-', '0'] = ['*'])),
    (by decide : ¬((0 : Int) = -1)), if_true, if_false, ite_false, ite_true,
    eq_self_iff_true, false_and, and_false, not_false_iff]

/-! ## Chunk planner closed forms -/

lemma mapM_option_eq_map {α β : Type} (l : List α) (f : α → Option β) (g : α → β)
    (h : ∀ a ∈ l, f a = some (g a)) : l.mapM f = some (l.map g) := by
  induction l with
  | nil => rfl
  | cons a as ih =>
    rw [List.mapM_cons, h a (List.mem_cons_self _ _),
      ih fun x hx => h x (List.mem_cons_of_mem _ hx)]
    rfl

lemma makeFileTask_nat (m : Nat) :
    makeFileTask (m : Int) =
      some (((List.range (m / 65536)).map fun (i : Nat) => FileTask.mk (65536 * (i : Int)) 65536) ++
        (if m % 65536 = 0 then []
         else [FileTask.mk (65536 * ((m / 65536 : Nat) : Int)) ((m % 65536 : Nat) : Int)])) := by
  have hdm := Nat.div_add_mod m 65536
  have hc : (64 * 1024 : Int) = 65536 := by norm_num
  have htd : goQuo (m : Int) 65536 = ((m / 65536 : Nat) : Int) := rfl
  have htn : ((m / 65536 : Nat) : Int).toNat = m / 65536 := Int.toNat_natCast _
  simp only [makeFileTask, hc, htd, htn]
  rw [if_neg (by omega)]
  by_cases hr : m % 65536 = 0
  · rw [if_neg (by push_cast; omega), if_pos hr, List.append_nil]
  · rw [if_pos (by push_cast; omega), if_neg hr]
    have hsz : (m : Int) - 65536 * ((m / 65536 : Nat) : Int) = ((m % 65536 : Nat) : Int) := by
      push_cast; omega
    rw [hsz]

lemma makeMemoryTask_nat (m : Nat) (buf : List Byte) (hb : buf.length = m) :
    makeMemoryTask (m : Int) buf =
      some (((List.range (m / 65536)).map fun (i : Nat) =>
          MemoryTask.mk (65536 * (i : Int)) ((buf.drop (65536 * i)).take 65536)) ++
        (if m % 65536 = 0 then []
         else [MemoryTask.mk (65536 * ((m / 65536 : Nat) : Int))
                ((buf.drop (65536 * (m / 65536))).take (m % 65536))])) := by
  have hdm := Nat.div_add_mod m 65536
  have hc : (64 * 1024 : Int) = 65536 := by norm_num
  have htd : goQuo (m : Int) 65536 = ((m / 65536 : Nat) : Int) := rfl
  have htn : ((m / 65536 : Nat) : Int).toNat = m / 65536 := Int.toNat_natCast _
  have hmapM : (List.range (m / 65536)).mapM (fun (i : Nat) =>
      (goSlice buf (65536 * (i : Int)) (65536 * (i : Int) + 65536)).map
        fun c => MemoryTask.mk (65536 * (i : Int)) c) =
      some ((List.range (m / 65536)).map fun (i : Nat) =>
        MemoryTask.mk (65536 * (i : Int)) ((buf.drop (65536 * i)).take 65536)) := by
    apply mapM_option_eq_map
    intro i hi
    have hilt : i < m / 65536 := List.mem_range.mp hi
    have hib : 65536 * (i + 1) ≤ m := by
      calc 65536 * (i + 1) ≤ 65536 * (m / 65536) := Nat.mul_le_mul_left _ hilt
        _ ≤ m := by omega
    have hgs : goSlice buf (65536 * (i : Int)) (65536 * (i : Int) + 65536) =
        some ((buf.drop (65536 * i)).take 65536) := by
      unfold goSlice
      rw [if_pos (by omega)]
      congr 2
      · omega
    rw [hgs]
    rfl
  have hgs : goSlice buf (65536 * ((m / 65536 : Nat) : Int)) (m : Int) =
      some ((buf.drop (65536 * (m / 65536))).take (m % 65536)) := by
    unfold goSlice
    rw [if_pos (by push_cast; omega)]
    have h1 : (65536 * ((m / 65536 : Nat) : Int)).toNat = 65536 * (m / 65536) := by
      omega
    have h2 : ((m : Int) - 65536 * ((m / 65536 : Nat) : Int)).toNat = m % 65536 := by
      omega
    rw [h1, h2]
  simp only [makeMemoryTask, hc, htd, htn]
  rw [if_neg (by omega), hmapM, Option.some_bind]
  by_cases hr : m % 65536 = 0
  · rw [if_pos hr,
      if_neg (show ¬(65536 * ((m / 65536 : Nat) : Int) < (m : Int)) by push_cast; omega),
      List.append_nil]
  · rw [if_neg hr,
      if_pos (show 65536 * ((m / 65536 : Nat) : Int) < (m : Int) by push_cast; omega),
      hgs, Option.some_bind]

/-! ## ReadAt over an honest transport -/

lemma renderCR_ne_empty (f l t : Int) : renderCR f l t ≠ "" := by
  intro h
  have hlen := congrArg (fun s : String => s.data.length) h
  simp only [renderCR] at hlen
  have h6 : ("bytes ".data).length = 6 := rfl
  have h0 : (("" : String).data).length = 0 := rfl
  simp only [List.length_append, h6, h0] at hlen
  omega

lemma getMeta_honest (f lC t : Int) (cl : Int) (lm et ct : String) (bd : List Byte)
    (hf0 : 0 ≤ f) (hl0 : 0 ≤ lC) (ht0 : 0 ≤ t)
    (hf : f ≤ 2 ^ 63 - 1) (hl : lC ≤ 2 ^ 63 - 1) (ht : t ≤ 2 ^ 63 - 1) :
    getMeta { statusCode := 206, contentLength := cl, contentRange := renderCR f lC t,
              lastModified := lm, etag := et, contentType := ct, body := bd } =
      .ok ⟨f, lC, t, lm, et, ct⟩ := by
  simp only [getMeta, parseContentRange_renderCR f lC t hf0 hl0 ht0 hf hl ht,
    renderCR_ne_empty f lC t, (by decide : ¬((206 : Nat) = 200)),
    if_true, if_false, ite_true, ite_false, ne_eq, not_false_iff, reduceIte]

/-- The response the honest client gives to a satisfiable request. -/
lemma honestClient_eq_some (content : List Byte) (lm et ct : String) (f l : Int)
    (hf0 : 0 ≤ f) (hfl : f ≤ l) (hfT : f < (content.length : Int))
    (hlT : l ≤ (content.length : Int) - 1) :
    honestClient content lm et ct f l =
      some { statusCode := 206, contentLength := l - f + 1,
             contentRange := renderCR f l (content.length : Int),
             lastModified := lm, etag := et, contentType := ct,
             body := (content.drop f.toNat).take (l - f + 1).toNat } := by
  unfold honestClient
  rw [if_pos ⟨hf0, hfl, hfT⟩, min_eq_left (by omega)]

lemma doRangeRequest_honest (content : List Byte) (lm et ct : String)
    (ra : HTTPReaderAt) (p : List Byte) (f l : Int) (re : Option GErr)
    (hcl : ra.client = honestClient content lm et ct)
    (hsz : ra.meta.size = (content.length : Int))
    (hlm : ra.meta.lastModified = lm) (het : ra.meta.etag = et)
    (hT : (content.length : Int) ≤ 2 ^ 63 - 1)
    (hf0 : 0 ≤ f) (hfl : f ≤ l) (hlT : l ≤ (content.length : Int) - 1)
    (hp : (p.length : Int) = l - f + 1) :
    doRangeRequest ra p f l re =
      ⟨p.length, re, (content.drop f.toNat).take p.length, true⟩ := by
  have hfT : f < (content.length : Int) := by omega
  have hresp := honestClient_eq_some content lm et ct f l hf0 hfl hfT hlT
  have hgm := getMeta_honest f l (content.length : Int) (l - f + 1) lm et ct
    ((content.drop f.toNat).take (l - f + 1).toNat)
    hf0 (by omega) (by omega) (by omega) (by omega) hT
  have hplen : p.length = (l - f + 1).toNat := by omega
  have hbl : ((content.drop f.toNat).take (l - f + 1).toNat).length = (l - f + 1).toNat := by
    rw [List.length_take, List.length_drop]
    omega
  simp only [doRangeRequest, hcl, hresp, hgm, hsz, hlm, het]
  simp only [ne_eq, not_true_eq_false, ite_false, if_false, reduceIte, lt_irrefl,
    or_self, or_false, false_or, not_false_iff, gt_iff_lt]
  rw [hbl, ← hplen, min_self]
  simp [List.take_take, List.drop_length]

/-- ReadAt of a window lying entirely inside the resource: all bytes are
delivered, no clamping, no end-of-resource. -/
lemma ReadAt_honest_exact (content : List Byte) (lm et ct : String)
    (ra : HTTPReaderAt) (p : List Byte) (off : Int)
    (hcl : ra.client = honestClient content lm et ct)
    (hsz : ra.meta.size = (content.length : Int))
    (hlm : ra.meta.lastModified = lm) (het : ra.meta.etag = et)
    (hT : (content.length : Int) ≤ 2 ^ 63 - 1)
    (hne : p ≠ []) (hoff : 0 ≤ off)
    (hend : off + (p.length : Int) ≤ (content.length : Int)) :
    ra.ReadAt p off = ⟨p.length, none, (content.drop off.toNat).take p.length, true⟩ := by
  have hlen : p.length ≠ 0 := fun h => hne (List.length_eq_zero.mp h)
  simp only [HTTPReaderAt.ReadAt, hsz]
  rw [if_neg hlen, if_neg (by omega)]
  exact doRangeRequest_honest content lm et ct ra p off (off + (p.length : Int) - 1) none
    hcl hsz hlm het hT hoff (by omega) (by omega) (by ring)

/-- ReadAt of a window straddling the end of the resource: the request is
clamped, the available bytes are delivered and io.EOF accompanies them. -/
lemma ReadAt_honest_straddle (content : List Byte) (lm et ct : String)
    (ra : HTTPReaderAt) (p : List Byte) (off : Int)
    (hcl : ra.client = honestClient content lm et ct)
    (hsz : ra.meta.size = (content.length : Int))
    (hlm : ra.meta.lastModified = lm) (het : ra.meta.etag = et)
    (hT : (content.length : Int) ≤ 2 ^ 63 - 1)
    (hoff0 : 0 ≤ off) (hoffT : off < (content.length : Int))
    (hover : (content.length : Int) < off + (p.length : Int)) :
    ra.ReadAt p off =
      ⟨((content.length : Int) - off).toNat, some .eof,
        content.drop off.toNat ++ p.drop ((content.length : Int) - off).toNat, true⟩ := by
  have hlen : p.length ≠ 0 := by omega
  have hkp : ((content.length : Int) - off).toNat ≤ p.length := by omega
  simp only [HTTPReaderAt.ReadAt, hsz]
  rw [if_neg hlen, if_pos (by constructor <;> omega), if_neg (by omega)]
  have hk : ((content.length : Int) - 1 - off + 1) = (content.length : Int) - off := by ring
  rw [hk]
  have htake : (p.take ((content.length : Int) - off).toNat).length =
      ((content.length : Int) - off).toNat := by
    rw [List.length_take]; omega
  rw [doRangeRequest_honest content lm et ct ra _ off ((content.length : Int) - 1)
    (some .eof) hcl hsz hlm het hT hoff0 (by omega) (by omega) (by rw [htake]; omega)]
  rw [htake]
  have hdl : ((content.drop off.toNat).take ((content.length : Int) - off).toNat) =
      content.drop off.toNat := by
    apply List.take_of_length_le
    rw [List.length_drop]
    omega
  rw [hdl]

/-- Construction over the honest transport: the probe caches
(0, 0, total size) plus the stable identity headers. -/
lemma New_honest (content : List Byte) (lm et ct : String)
    (h1 : content ≠ []) (hT : (content.length : Int) ≤ 2 ^ 63 - 1) :
    New (honestClient content lm et ct) =
      .ok ⟨honestClient content lm et ct, ⟨0, 0, (content.length : Int), lm, et, ct⟩⟩ := by
  have hT1 : 0 < content.length := List.length_pos.mpr h1
  have hresp := honestClient_eq_some content lm et ct 0 0 le_rfl le_rfl
    (by omega) (by omega)
  have hgm := getMeta_honest 0 0 (content.length : Int) (0 - 0 + 1) lm et ct
    ((content.drop (0 : Int).toNat).take ((0 : Int) - 0 + 1).toNat)
    le_rfl le_rfl (by omega) (by omega) (by omega) hT
  simp only [New, hresp, hgm, ne_eq, not_true_eq_false, ite_false, if_false, reduceIte]

/-- The chunk plan `ts` tiles the interval from `o` to `T` contiguously
with non-empty windows. -/
def covers (T : Nat) : Nat → List MemoryTask → Prop
  | o, [] => o = T
  | o, t :: ts =>
    t.offset = (o : Int) ∧ t.content.length ≠ 0 ∧ o + t.content.length ≤ T ∧
      covers T (o + t.content.length) ts

lemma covers_full (T : Nat) (buf : List Byte) (hbuf : buf.length = T) :
    ∀ (k j : Nat) (rest : List MemoryTask),
      65536 * (j + k) ≤ T →
      covers T (65536 * (j + k)) rest →
      covers T (65536 * j)
        (((List.range' j k).map fun (i : Nat) =>
            MemoryTask.mk (65536 * (i : Int)) ((buf.drop (65536 * i)).take 65536)) ++ rest) := by
  intro k
  induction k with
  | zero =>
    intro j rest hb hc
    simpa using hc
  | succ k ih =>
    intro j rest hb hc
    have hj1 : 65536 * (j + 1) ≤ T := by
      have : j + 1 ≤ j + (k + 1) := by omega
      calc 65536 * (j + 1) ≤ 65536 * (j + (k + 1)) := Nat.mul_le_mul_left _ this
        _ ≤ T := hb
    have hrange : List.range' j (k + 1) = j :: List.range' (j + 1) k := rfl
    rw [hrange]
    simp only [List.map_cons, List.cons_append]
    refine ⟨by push_cast; ring, ?_, ?_, ?_⟩
    · rw [List.length_take, List.length_drop, hbuf]
      omega
    · rw [List.length_take, List.length_drop, hbuf]
      omega
    · have hlen : ((buf.drop (65536 * j)).take 65536).length = 65536 := by
        rw [List.length_take, List.length_drop, hbuf]
        omega
      rw [hlen]
      have hnext : 65536 * j + 65536 = 65536 * (j + 1) := by ring
      rw [hnext]
      apply ih (j + 1) rest
      · have : (j + 1) + k = j + (k + 1) := by omega
        rw [this]; exact hb
      · have : (j + 1) + k = j + (k + 1) := by omega
        rw [this]; exact hc

/-- The memory-task plan for a buffer of length m tiles [0, m). -/
lemma covers_plan (m : Nat) (buf : List Byte) (hbuf : buf.length = m) :
    covers m 0
      (((List.range (m / 65536)).map fun (i : Nat) =>
          MemoryTask.mk (65536 * (i : Int)) ((buf.drop (65536 * i)).take 65536)) ++
        (if m % 65536 = 0 then []
         else [MemoryTask.mk (65536 * ((m / 65536 : Nat) : Int))
                ((buf.drop (65536 * (m / 65536))).take (m % 65536))])) := by
  have hdm := Nat.div_add_mod m 65536
  have h0 : (0 : Nat) = 65536 * 0 := by ring
  rw [List.range_eq_range', h0]
  apply covers_full m buf hbuf (m / 65536) 0 _ (by omega)
  by_cases hr : m % 65536 = 0
  · rw [if_pos hr]
    show 65536 * (0 + m / 65536) = m
    omega
  · rw [if_neg hr]
    refine ⟨by push_cast; ring_nf, ?_, ?_, ?_⟩
    · rw [List.length_take, List.length_drop, hbuf]
      omega
    · rw [List.length_take, List.length_drop, hbuf]
      omega
    · show _ = m
      rw [List.length_take, List.length_drop, hbuf]
      omega

/-- Running a plan that tiles [o, T) over the honest transport completes
the buffer from position o on; positions below o keep their old bytes. -/
lemma runTasks_honest (content : List Byte) (lm et ct : String) (ra : HTTPReaderAt)
    (hcl : ra.client = honestClient content lm et ct)
    (hsz : ra.meta.size = (content.length : Int))
    (hlm : ra.meta.lastModified = lm) (het : ra.meta.etag = et)
    (hT : (content.length : Int) ≤ 2 ^ 63 - 1) :
    ∀ (ts : List MemoryTask) (o : Nat) (buf : List Byte),
      covers content.length o ts → buf.length = content.length →
      runTasks ra ts buf = .ok (buf.take o ++ content.drop o) := by
  intro ts
  induction ts with
  | nil =>
    intro o buf hc hb
    have ho : o = content.length := hc
    subst ho
    rw [runTasks, List.take_of_length_le (le_of_eq hb), List.drop_length, List.append_nil]
  | cons t ts ih =>
    intro o buf hc hb
    obtain ⟨hoff, hne0, hbound, hrest⟩ := hc
    have hread := ReadAt_honest_exact content lm et ct ra t.content (o : Int)
      hcl hsz hlm het hT
      (fun h => hne0 (by rw [h]; rfl))
      (by omega)
      (by omega)
    have hchunk : readChunk ra t =
        .ok ((content.drop o).take t.content.length) := by
      unfold readChunk
      rw [hoff, hread]
      simp [Int.toNat_natCast]
    rw [runTasks, hchunk]
    show runTasks ra ts (writeAt buf t.offset ((content.drop o).take t.content.length)) = _
    rw [hoff]
    have hbytes : ((content.drop o).take t.content.length).length = t.content.length := by
      rw [List.length_take, List.length_drop]
      omega
    have hw : writeAt buf (o : Int) ((content.drop o).take t.content.length) =
        buf.take o ++ ((content.drop o).take t.content.length) ++
          buf.drop (o + t.content.length) := by
      unfold writeAt
      rw [Int.toNat_natCast, hbytes]
    rw [hw]
    have hwlen : (buf.take o ++ ((content.drop o).take t.content.length) ++
        buf.drop (o + t.content.length)).length = content.length := by
      simp only [List.length_append, List.length_take, List.length_drop, hbytes, hb]
      omega
    rw [ih (o + t.content.length) _ hrest hwlen]
    have htko : (buf.take o).length = o := by
      rw [List.length_take]
      omega
    have hassoc : buf.take o ++ ((content.drop o).take t.content.length) ++
        buf.drop (o + t.content.length) =
        buf.take o ++ (((content.drop o).take t.content.length) ++
          buf.drop (o + t.content.length)) := by
      rw [List.append_assoc]
    rw [hassoc]
    have htk : (buf.take o ++ (((content.drop o).take t.content.length) ++
        buf.drop (o + t.content.length))).take (o + t.content.length) =
        buf.take o ++ ((content.drop o).take t.content.length) := by
      rw [← List.append_assoc]
      apply List.take_left'
      rw [List.length_append, htko, hbytes]
    rw [htk, List.append_assoc]
    congr 1
    have hdd : content.drop (o + t.content.length) = (content.drop o).drop t.content.length := by
      rw [List.drop_drop]
    rw [hdd, List.take_append_drop]

/-- The buffer-mode download over the honest transport returns exactly the
resource bytes. -/
lemma Do_honest (content : List Byte) (lm et ct : String)
    (h1 : content ≠ []) (hT : (content.length : Int) ≤ 2 ^ 63 - 1) :
    Do (honestClient content lm et ct) = .ok content := by
  have hmk := makeMemoryTask_nat content.length
    (List.replicate content.length 0) (by rw [List.length_replicate])
  have htn : ((content.length : Int)).toNat = content.length := Int.toNat_natCast _
  have hrt := runTasks_honest content lm et ct
    ⟨honestClient content lm et ct, ⟨0, 0, (content.length : Int), lm, et, ct⟩⟩
    rfl rfl rfl rfl hT _ 0 (List.replicate content.length 0)
    (covers_plan content.length (List.replicate content.length 0)
      (by rw [List.length_replicate]))
    (by rw [List.length_replicate])
  simp only [Do, New_honest content lm et ct h1 hT, HTTPReaderAt.Size,
    (show ¬((content.length : Int) < 0) by omega), htn, hmk, hrt,
    if_false, ite_false, reduceIte, List.take_zero, List.drop_zero, List.nil_append]

/-- Sequential single-shot reads of consecutive windows concatenate to the
suffix of the resource they cover. -/
lemma seqReadsFrom_honest (content : List Byte) (lm et ct : String) (ra : HTTPReaderAt)
    (hcl : ra.client = honestClient content lm et ct)
    (hsz : ra.meta.size = (content.length : Int))
    (hlm : ra.meta.lastModified = lm) (het : ra.meta.etag = et)
    (hT : (content.length : Int) ≤ 2 ^ 63 - 1) :
    ∀ (sizes : List Nat) (o : Nat),
      (∀ s ∈ sizes, 0 < s) → o + sizes.sum = content.length →
      seqReadsFrom ra (o : Int) sizes = some (content.drop o) := by
  intro sizes
  induction sizes with
  | nil =>
    intro o _ hsum
    have ho : o = content.length := by simpa using hsum
    subst ho
    rw [seqReadsFrom, List.drop_length]
  | cons s rest ih =>
    intro o hall hsum
    have hs : 0 < s := hall s (List.mem_cons_self _ _)
    have hrlen : (List.replicate s (0 : Byte)).length = s := List.length_replicate _ _
    have hread := ReadAt_honest_exact content lm et ct ra (List.replicate s 0) (o : Int)
      hcl hsz hlm het hT
      (fun h => by rw [h] at hrlen; simp at hrlen; omega)
      (by omega)
      (by rw [hrlen]; simp only [List.sum_cons] at hsum; omega)
    rw [seqReadsFrom, hread]
    show (seqReadsFrom ra ((o : Int) + ((List.replicate s (0 : Byte)).length : Int)) rest).map _ = _
    rw [hrlen]
    have hcast : ((o : Int) + (s : Int)) = ((o + s : Nat) : Int) := by push_cast; ring
    rw [hcast, ih (o + s) (fun x hx => hall x (List.mem_cons_of_mem _ hx))
      (by simp only [List.sum_cons] at hsum; omega)]
    have hto : ((o : Int)).toNat = o := Int.toNat_natCast _
    have hdd : content.drop (o + s) = (content.drop o).drop s := by
      rw [List.drop_drop]
    rw [hdd]
    simp only [Option.map_some', Option.some.injEq, hrlen, hto]
    exact List.take_append_drop s (content.drop o)

/-! ## Claim theorems -/

/-- C5: the Content-Range parser maps `bytes 42-1233/1234` to
(42, 1233, 1234), `bytes 42-1233/*` to (42, 1233, -1), `bytes */1234` to
(-1, -1, 1234); `garbage`, `bytes 42-1233` and the dash-slash-dash input
are parse errors; and no input at all parses to the all-unknown triple
(-1, -1, -1). -/
theorem parseContentRange_cases :
    parseContentRange "bytes 42-1233/1234" = some (42, 1233, 1234) ∧
    parseContentRange "bytes 42-1233/*" = some (42, 1233, -1) ∧
    parseContentRange "bytes */1234" = some (-1, -1, 1234) ∧
    parseContentRange "garbage" = none ∧
    parseContentRange "bytes 42-1233" = none ∧
    parseContentRange "bytes -/-" = none ∧
    (∀ (s : String) (f l n : Int),
      parseContentRange s = some (f, l, n) → ¬(f = -1 ∧ l = -1 ∧ n = -1)) := by
  refine ⟨by decide, by decide, by decide, by decide, by decide, by decide, ?_⟩
  intro s f l n h hall
  obtain ⟨rfl, rfl, rfl⟩ := hall
  unfold parseContentRange parseCR at h
  repeat' split at h
  all_goals simp_all

/-- C5 witness: the totality conjunct applied at a concrete parse. -/
theorem parseContentRange_cases_witness :
    ¬((42 : Int) = -1 ∧ (1233 : Int) = -1 ∧ (1234 : Int) = -1) :=
  parseContentRange_cases.2.2.2.2.2.2 "bytes 42-1233/1234" 42 1233 1234 (by decide)

/-- C8 counterexample: the input whose range side is 0-0 and whose length
field is the negative integer -5 is accepted with length -5 rather than
rejected with a parse error. -/
theorem negative_length_accepted :
    parseContentRange "bytes 0-0/-5" = some (0, 0, -5) ∧ (-5 : Int) < 0 := by
  constructor
  · decide
  · decide

/-- C8 amended: the length field of `bytes F-L/N` is parsed with a signed
64-bit integer parse, so any N in the int64 range is accepted, negative
values included (the only all-unknown rejection cannot fire since first
and last are 0 here). -/
theorem length_parsed_as_signed_int64 (n : Int)
    (hlo : -(2 ^ 63) ≤ n) (hhi : n ≤ 2 ^ 63 - 1) :
    parseContentRange ⟨"bytes 0-0/".data ++ renderInt n⟩ = some (0, 0, n) :=
  parseContentRange_zero_zero n hlo hhi

/-- C8 witness: the amended claim at N = -7. -/
theorem length_parsed_as_signed_int64_witness :
    parseContentRange ⟨"bytes 0-0/".data ++ renderInt (-7)⟩ = some (0, 0, -7) :=
  length_parsed_as_signed_int64 (-7) (by decide) (by decide)

/-- C7 counterexample: a probe answered 206 with no Content-Range header
at all communicates no total length, yet the constructed reader reports
size 0, not -1 (the Meta snapshot initialises size to 0). -/
theorem size_zero_without_content_range :
    (New (fun _ _ => some ⟨206, 1, "", "lm", "e", "ct", [7]⟩)).map HTTPReaderAt.Size =
      .ok 0 ∧ (0 : Int) ≠ -1 := by
  constructor
  · rfl
  · decide

/-- C7 amended: after a 206 probe, Size() is 0 when the response carried
no Content-Range header, and -1 exactly when it carried one whose length
field is unknown (parses to -1). -/
theorem size_unknown_only_with_star :
    (∀ (client : Client) (resp : Response),
      client 0 0 = some resp → resp.statusCode = 206 → resp.contentRange = "" →
      (New client).map HTTPReaderAt.Size = .ok 0) ∧
    (∀ (client : Client) (resp : Response) (f l : Int),
      client 0 0 = some resp → resp.statusCode = 206 →
      parseContentRange resp.contentRange = some (f, l, -1) →
      resp.contentRange ≠ "" →
      (New client).map HTTPReaderAt.Size = .ok (-1)) := by
  constructor
  · intro client resp hcl h206 hcr
    simp only [New, hcl, h206, getMeta, hcr, ne_eq,
      (by decide : ¬((206 : Nat) = 200)), (by decide : ((206 : Nat) = 206)),
      (by decide : ¬(("" : String) ≠ "")), not_true_eq_false, not_false_iff,
      ite_true, ite_false, if_true, if_false, reduceIte, Except.map, HTTPReaderAt.Size]
  · intro client resp f l hcl h206 hparse hcr
    simp only [New, hcl, h206, getMeta, hparse, hcr, ne_eq,
      (by decide : ¬((206 : Nat) = 200)), (by decide : ((206 : Nat) = 206)),
      not_true_eq_false, not_false_iff,
      ite_true, ite_false, if_true, if_false, reduceIte, Except.map, HTTPReaderAt.Size]

/-- C7 witness: the two amended cases at concrete probes. -/
theorem size_unknown_only_with_star_witness :
    (New (fun _ _ => some ⟨206, 1, "", "L", "E", "C", [7]⟩)).map HTTPReaderAt.Size =
      .ok 0 ∧
    (New (fun _ _ => some ⟨206, 1, "bytes 0-0/*", "L", "E", "C", [7]⟩)).map
      HTTPReaderAt.Size = .ok (-1) :=
  ⟨size_unknown_only_with_star.1 _ ⟨206, 1, "", "L", "E", "C", [7]⟩ rfl rfl rfl,
   size_unknown_only_with_star.2 _ ⟨206, 1, "bytes 0-0/*", "L", "E", "C", [7]⟩ 0 0
     rfl rfl (by decide) (by decide)⟩

/-- C9: Do allocates its destination buffer with the probed size without a
sign check, so any successful construction whose cached size is -1 makes
Do panic at the allocation instead of returning an error. -/
theorem do_panics_on_negative_size :
    ∀ (client : Client) (ra : HTTPReaderAt),
      New client = .ok ra → ra.Size = -1 → Do client = .panic := by
  intro client ra hnew hsize
  simp only [Do, hnew]
  rw [if_pos (by rw [hsize]; decide)]

/-- C9 witness: a probe answered 206 with an unknown-length Content-Range
caches size -1 and the download panics. -/
theorem do_panics_on_negative_size_witness :
    Do (fun _ _ => some ⟨206, 1, "bytes 0-0/*", "L", "E", "C", [7]⟩) = .panic :=
  do_panics_on_negative_size _
    ⟨fun _ _ => some ⟨206, 1, "bytes 0-0/*", "L", "E", "C", [7]⟩,
     ⟨0, 0, -1, "L", "E", "C"⟩⟩ rfl rfl

/-- C3: with a known cached size, a read at or past the end returns zero
bytes and io.EOF without issuing any request, and a read straddling the
end is clamped to size-1, delivers the size-offset available bytes and
reports io.EOF alongside them. -/
theorem readAt_eof_clamping :
    (∀ (ra : HTTPReaderAt) (p : List Byte) (off : Int),
      ra.meta.size ≠ -1 → p ≠ [] → ra.meta.size ≤ off →
      ra.ReadAt p off = ⟨0, some .eof, p, false⟩) ∧
    (∀ (content : List Byte) (lm et ct : String) (ra : HTTPReaderAt)
        (p : List Byte) (off : Int),
      New (honestClient content lm et ct) = .ok ra →
      (content.length : Int) ≤ 2 ^ 63 - 1 →
      0 ≤ off → off < (content.length : Int) →
      (content.length : Int) < off + (p.length : Int) →
      ra.ReadAt p off =
        ⟨((content.length : Int) - off).toNat, some .eof,
          content.drop off.toNat ++ p.drop ((content.length : Int) - off).toNat, true⟩) := by
  constructor
  · intro ra p off hknown hne hoff
    have hlen : p.length ≠ 0 := fun h => hne (List.length_eq_zero.mp h)
    have hlen1 : 1 ≤ p.length := by omega
    simp only [HTTPReaderAt.ReadAt]
    rw [if_neg hlen,
      if_pos ⟨hknown, by omega⟩,
      if_pos (by omega)]
  · intro content lm et ct ra p off hnew hT hoff0 hoffT hover
    have h1 : content ≠ [] := by
      intro h
      rw [h] at hoffT
      simp at hoffT
      omega
    rw [New_honest content lm et ct h1 hT] at hnew
    injection hnew with hra
    subst hra
    exact ReadAt_honest_straddle content lm et ct _ p off rfl rfl rfl rfl hT hoff0 hoffT hover

/-- C3 witness: past-the-end and straddling reads at concrete inputs. -/
theorem readAt_eof_clamping_witness :
    (HTTPReaderAt.mk (fun _ _ => none) ⟨-1, -1, 5, "L", "E", "C"⟩).ReadAt [0, 0] 5 =
      ⟨0, some .eof, [0, 0], false⟩ ∧
    (HTTPReaderAt.mk (honestClient [7, 8, 9] "L" "E" "C") ⟨0, 0, 3, "L", "E", "C"⟩).ReadAt
        [0, 0] 2 =
      ⟨1, some .eof, [9, 0], true⟩ := by
  constructor
  · exact readAt_eof_clamping.1 _ [0, 0] 5 (by decide) (by decide) (by decide)
  · exact readAt_eof_clamping.2 [7, 8, 9] "L" "E" "C" _ [0, 0] 2
      (New_honest [7, 8, 9] "L" "E" "C" (by decide) (by decide)) (by decide)
      (by decide) (by decide) (by decide)

/-- C6 counterexample: a response whose body (2 bytes) ends before its
Content-Length (4) is still reported as io.EOF by ReadAt, not as a
transport error: ErrUnexpectedEOF is unconditionally converted to io.EOF
and the byte-count mismatch is only logged. -/
theorem short_body_eof_counterexample :
    (HTTPReaderAt.mk (fun _ _ => some ⟨206, 4, "bytes 0-3/10", "L", "E", "C", [5, 6]⟩)
        ⟨0, 0, 10, "L", "E", "C"⟩).ReadAt [0, 0, 0, 0] 0 =
      ⟨2, some .eof, [5, 6, 0, 0], true⟩ ∧ (2 : Int) ≠ 4 := by
  constructor
  · decide
  · decide

/-- C6 amended: whenever the body read is reached and the body ends before
the buffer is filled, ReadAt reports io.EOF with the bytes it got,
regardless of whether that count matches the response's Content-Length
(a mismatch is logged, never turned into an error). -/
theorem short_body_reported_as_eof :
    ∀ (ra : HTTPReaderAt) (p : List Byte) (off : Int) (resp : Response) (m : Meta),
      p ≠ [] →
      ¬(ra.meta.size ≠ -1 ∧ off + (p.length : Int) - 1 > ra.meta.size - 1) →
      ra.client off (off + (p.length : Int) - 1) = some resp →
      resp.statusCode = 206 →
      getMeta resp = .ok m →
      ra.meta.size = m.size → ra.meta.lastModified = m.lastModified →
      ra.meta.etag = m.etag →
      m.start = off → ¬(m.endPos > off + (p.length : Int) - 1) →
      resp.contentLength = m.endPos - m.start + 1 →
      resp.body.length < p.length →
      ra.ReadAt p off =
        ⟨resp.body.length, some .eof, resp.body ++ p.drop resp.body.length, true⟩ := by
  intro ra p off resp m hne hnc hreq h206 hgm hsz hlm het hstart hend hclen hshort
  have hlen : p.length ≠ 0 := fun h => hne (List.length_eq_zero.mp h)
  simp only [HTTPReaderAt.ReadAt]
  rw [if_neg hlen, if_neg hnc]
  simp only [doRangeRequest, hreq, h206, hgm, hsz, hlm, het, hstart, hclen,
    (by decide : ¬((206 : Nat) ≠ 206)), ne_eq, not_true_eq_false, ite_false, if_false,
    reduceIte, lt_irrefl, or_self, false_or, or_false, not_false_iff]
  rw [if_neg (by omega)]
  simp [min_eq_left (le_of_lt hshort),
    if_neg (show ¬(resp.body.length = p.length) by omega), List.take_length]

/-- C6 witness: a 1-byte body against a Content-Length of 3 is reported
as io.EOF with the single byte delivered. -/
theorem short_body_reported_as_eof_witness :
    (HTTPReaderAt.mk (fun _ _ => some ⟨206, 3, "bytes 1-3/9", "L", "E", "C", [4]⟩)
        ⟨0, 0, 9, "L", "E", "C"⟩).ReadAt [0, 0, 0] 1 =
      ⟨1, some .eof, [4, 0, 0], true⟩ :=
  short_body_reported_as_eof _ [0, 0, 0] 1 ⟨206, 3, "bytes 1-3/9", "L", "E", "C", [4]⟩
    ⟨1, 3, 9, "L", "E", "C"⟩ (by decide) (by decide) rfl rfl rfl rfl rfl rfl
    rfl (by decide) (by decide) (by decide)

/-- The request path always marks that a request was issued. -/
lemma doRangeRequest_requested (ra : HTTPReaderAt) (p : List Byte) (f l : Int)
    (re : Option GErr) : (doRangeRequest ra p f l re).requested = true := by
  unfold doRangeRequest
  cases ra.client f l with
  | none => rfl
  | some resp =>
    repeat' split
    all_goals rfl

/-- The request path either leaves the buffer untouched (every early
error return) or ends in the body read, whose error is the remembered
clamp marker or io.EOF. -/
lemma doRangeRequest_cases (ra : HTTPReaderAt) (p : List Byte) (f l : Int)
    (re : Option GErr) :
    (doRangeRequest ra p f l re).buf = p ∨
    ((doRangeRequest ra p f l re).err = re ∨
      (doRangeRequest ra p f l re).err = some .eof) := by
  unfold doRangeRequest
  cases ra.client f l with
  | none => exact Or.inl rfl
  | some resp =>
    dsimp only
    repeat' split
    all_goals first
      | exact Or.inl rfl
      | exact Or.inr (Or.inl rfl)
      | exact Or.inr (Or.inr rfl)
      | simp_all

/-- C10: ReadAt never modifies the caller's buffer before the body read:
when no request was issued (empty buffer, empty clamped range) and on
every error return other than io.EOF (transport failure, non-206 status,
metadata parse failure, validation failure, range-bounds mismatch,
Content-Length mismatch), the buffer comes back unchanged; only the final
body read writes into it. -/
theorem readAt_buffer_frame :
    (∀ (ra : HTTPReaderAt) (p : List Byte) (off : Int),
      (ra.ReadAt p off).requested = false → (ra.ReadAt p off).buf = p) ∧
    (∀ (ra : HTTPReaderAt) (p : List Byte) (off : Int) (e : GErr),
      (ra.ReadAt p off).err = some e → e ≠ .eof → (ra.ReadAt p off).buf = p) := by
  constructor
  · intro ra p off h
    revert h
    unfold HTTPReaderAt.ReadAt
    dsimp only
    repeat' split
    all_goals intro h
    all_goals first
      | rfl
      | (exfalso; rw [doRangeRequest_requested] at h; exact Bool.noConfusion h)
  · intro ra p off e herr hne
    revert herr
    unfold HTTPReaderAt.ReadAt
    dsimp only
    repeat' split
    all_goals intro herr
    · exact absurd herr (by simp)
    · exact absurd (Option.some.inj herr) (fun h => hne h.symm)
    · rcases doRangeRequest_cases ra (p.take ((ra.meta.size - 1 - off + 1).toNat)) off
        (ra.meta.size - 1) (some .eof) with hbuf | hre | heof
      · rw [hbuf, List.take_append_drop]
      · rw [herr] at hre
        exact absurd (Option.some.inj hre) (fun h => hne h)
      · rw [herr] at heof
        exact absurd (Option.some.inj heof) (fun h => hne h)
    · rcases doRangeRequest_cases ra p off (off + (p.length : Int) - 1) none with
        hbuf | hre | heof
      · exact hbuf
      · rw [herr] at hre
        exact absurd hre (by simp)
      · rw [herr] at heof
        exact absurd (Option.some.inj heof) (fun h => hne h)

/-- C10 witness: the empty-clamp path and the transport-failure path at
concrete inputs leave the buffer unchanged. -/
theorem readAt_buffer_frame_witness :
    ((HTTPReaderAt.mk (fun _ _ => none) ⟨-1, -1, 3, "", "", ""⟩).ReadAt [0] 9).buf = [0] ∧
    ((HTTPReaderAt.mk (fun _ _ => none) ⟨-1, -1, -1, "", "", ""⟩).ReadAt [1, 2] 0).buf =
      [1, 2] :=
  ⟨readAt_buffer_frame.1 _ [0] 9 (by decide),
   readAt_buffer_frame.2 _ [1, 2] 0 .transport (by decide) (by decide)⟩

/-- Any request whose response metadata differs from the cached snapshot
in size, Last-Modified or ETag ends in the validation error with the
buffer untouched. -/
lemma doRangeRequest_validation (ra : HTTPReaderAt) (p : List Byte) (f l : Int)
    (re : Option GErr) (resp : Response) (m : Meta)
    (hreq : ra.client f l = some resp) (h206 : resp.statusCode = 206)
    (hgm : getMeta resp = .ok m)
    (hmis : ra.meta.size ≠ m.size ∨ ra.meta.lastModified ≠ m.lastModified ∨
      ra.meta.etag ≠ m.etag) :
    doRangeRequest ra p f l re = ⟨0, some .validation, p, true⟩ := by
  simp only [doRangeRequest, hreq, hgm]
  rw [if_neg (by simp [h206]), if_pos hmis]

/-- The mutating client construction succeeds and caches the probe-time
ETag et1. -/
lemma New_mutating (content : List Byte) (lm et1 et2 ct : String)
    (h1 : content ≠ []) (hT : (content.length : Int) ≤ 2 ^ 63 - 1) :
    New (mutatingClient content lm et1 et2 ct) =
      .ok ⟨mutatingClient content lm et1 et2 ct,
           ⟨0, 0, (content.length : Int), lm, et1, ct⟩⟩ := by
  have hT1 : 0 < content.length := List.length_pos.mpr h1
  have hresp : mutatingClient content lm et1 et2 ct 0 0 =
      some { statusCode := 206, contentLength := 0 - 0 + 1,
             contentRange := renderCR 0 0 (content.length : Int),
             lastModified := lm, etag := et1, contentType := ct,
             body := (content.drop (0 : Int).toNat).take ((0 : Int) - 0 + 1).toNat } := by
    show (if (0 : Int) = 0 ∧ (0 : Int) = 0 then _ else _) = _
    rw [if_pos ⟨rfl, rfl⟩]
    exact honestClient_eq_some content lm et1 ct 0 0 le_rfl le_rfl (by omega) (by omega)
  have hgm := getMeta_honest 0 0 (content.length : Int) (0 - 0 + 1) lm et1 ct
    ((content.drop (0 : Int).toNat).take ((0 : Int) - 0 + 1).toNat)
    le_rfl le_rfl (by omega) (by omega) (by omega) hT
  simp only [New, hresp, hgm, ne_eq, not_true_eq_false, ite_false, if_false, reduceIte]

/-- The memory-task plan of a resource of at least one byte starts with
the chunk at offset 0 whose window is the first min(64 KiB, m) bytes. -/
lemma plan_head (m : Nat) (buf : List Byte) (h1 : 1 ≤ m) :
    ∃ rest, (((List.range (m / 65536)).map fun (i : Nat) =>
        MemoryTask.mk (65536 * (i : Int)) ((buf.drop (65536 * i)).take 65536)) ++
      (if m % 65536 = 0 then []
       else [MemoryTask.mk (65536 * ((m / 65536 : Nat) : Int))
              ((buf.drop (65536 * (m / 65536))).take (m % 65536))])) =
      MemoryTask.mk 0 (buf.take (min 65536 m)) :: rest := by
  by_cases hq : m / 65536 = 0
  · have hlt : m < 65536 := by omega
    have hr : ¬(m % 65536 = 0) := by omega
    refine ⟨[], ?_⟩
    rw [hq]
    simp only [List.range_zero, List.map_nil, List.nil_append, if_neg hr]
    have ho : (65536 * ((0 : Nat) : Int)) = 0 := by simp
    have hd : 65536 * (0 : Nat) = 0 := by simp
    have hmm : m % 65536 = m := by omega
    have hmin : min 65536 m = m := by omega
    rw [ho, hd, hmm, hmin, List.drop_zero]
  · have hge : 65536 ≤ m := by omega
    obtain ⟨k, hk⟩ : ∃ k, m / 65536 = k + 1 := ⟨m / 65536 - 1, by omega⟩
    rw [hk, List.range_eq_range']
    have hr : List.range' 0 (k + 1) = 0 :: List.range' 1 k := rfl
    rw [hr]
    refine ⟨((List.range' 1 k).map fun (i : Nat) =>
        MemoryTask.mk (65536 * (i : Int)) ((buf.drop (65536 * i)).take 65536)) ++
      (if m % 65536 = 0 then []
       else [MemoryTask.mk (65536 * ((k + 1 : Nat) : Int))
              ((buf.drop (65536 * (k + 1))).take (m % 65536))]), ?_⟩
    simp only [List.map_cons, List.cons_append]
    have ho : (65536 * ((0 : Nat) : Int)) = 0 := by simp
    have hd : 65536 * (0 : Nat) = 0 := by simp
    have hmin : min 65536 m = 65536 := by omega
    rw [ho, hd, hmin, List.drop_zero]

/-- A resource whose ETag changes after the probe makes the buffer-mode
download fail with the validation error: the first chunk read detects the
mismatch against the cached snapshot. -/
lemma Do_mutating (content : List Byte) (lm et1 et2 ct : String)
    (h2 : 2 ≤ content.length) (hT : (content.length : Int) ≤ 2 ^ 63 - 1)
    (hetag : et1 ≠ et2) :
    Do (mutatingClient content lm et1 et2 ct) = .fail .validation := by
  have h1 : content ≠ [] := by
    intro h
    rw [h] at h2
    simp at h2
  have hNew := New_mutating content lm et1 et2 ct h1 hT
  have hmk := makeMemoryTask_nat content.length (List.replicate content.length 0)
    (by rw [List.length_replicate])
  obtain ⟨rest, hhead⟩ :=
    plan_head content.length (List.replicate content.length 0) (by omega)
  have hwlen : ((List.replicate content.length (0 : Byte)).take
      (min 65536 content.length)).length = min 65536 content.length := by
    rw [List.length_take, List.length_replicate]
    omega
  have hread : (HTTPReaderAt.mk (mutatingClient content lm et1 et2 ct)
        ⟨0, 0, (content.length : Int), lm, et1, ct⟩).ReadAt
      ((List.replicate content.length 0).take (min 65536 content.length)) 0 =
      ⟨0, some .validation,
        (List.replicate content.length 0).take (min 65536 content.length), true⟩ := by
    unfold HTTPReaderAt.ReadAt
    dsimp only
    rw [hwlen]
    rw [if_neg (by omega), if_neg (by omega)]
    have hreqX : mutatingClient content lm et1 et2 ct 0
        (0 + ((min 65536 content.length : Nat) : Int) - 1) =
        some { statusCode := 206,
               contentLength := (0 + ((min 65536 content.length : Nat) : Int) - 1) - 0 + 1,
               contentRange := renderCR 0 (0 + ((min 65536 content.length : Nat) : Int) - 1)
                 (content.length : Int),
               lastModified := lm, etag := et2, contentType := ct,
               body := (content.drop (0 : Int).toNat).take
                 ((0 + ((min 65536 content.length : Nat) : Int) - 1) - 0 + 1).toNat } := by
      show (if (0 : Int) = 0 ∧ (0 + ((min 65536 content.length : Nat) : Int) - 1) = 0
        then _ else _) = _
      rw [if_neg (by omega)]
      exact honestClient_eq_some content lm et2 ct 0 _ le_rfl (by omega) (by omega)
        (by omega)
    have hgmX := getMeta_honest 0 (0 + ((min 65536 content.length : Nat) : Int) - 1)
      (content.length : Int) ((0 + ((min 65536 content.length : Nat) : Int) - 1) - 0 + 1)
      lm et2 ct ((content.drop (0 : Int).toNat).take
        ((0 + ((min 65536 content.length : Nat) : Int) - 1) - 0 + 1).toNat)
      le_rfl (by omega) (by omega) (by omega) (by omega) hT
    exact doRangeRequest_validation _ _ 0 _ none _ _ hreqX rfl hgmX
      (Or.inr (Or.inr (show et1 ≠ et2 from hetag)))
  have hrc : readChunk (HTTPReaderAt.mk (mutatingClient content lm et1 et2 ct)
        ⟨0, 0, (content.length : Int), lm, et1, ct⟩)
      ⟨0, (List.replicate content.length 0).take (min 65536 content.length)⟩ =
      .error .validation := by
    unfold readChunk
    dsimp only
    rw [hread]
  simp only [Do, hNew, HTTPReaderAt.Size, Int.toNat_natCast]
  rw [if_neg (by omega), hmk]
  show (match runTasks _ _ _ with | .error e => DoOut.fail e | .ok b => DoOut.ok b) = _
  rw [hhead, runTasks, hrc]

/-- C4: a ReadAt whose response metadata differs from the cached snapshot
in size, Last-Modified or ETag returns 0 bytes and the validation error
(on the unclamped and on the clamped request path alike, with the buffer
untouched), and a buffer-mode download whose chunk reads see a changed
ETag fails with that error and no buffer. -/
theorem metadata_change_validation_error :
    (∀ (ra : HTTPReaderAt) (p : List Byte) (off : Int) (resp : Response) (m : Meta),
      p ≠ [] →
      ¬(ra.meta.size ≠ -1 ∧ off + (p.length : Int) - 1 > ra.meta.size - 1) →
      ra.client off (off + (p.length : Int) - 1) = some resp →
      resp.statusCode = 206 → getMeta resp = .ok m →
      (ra.meta.size ≠ m.size ∨ ra.meta.lastModified ≠ m.lastModified ∨
        ra.meta.etag ≠ m.etag) →
      ra.ReadAt p off = ⟨0, some .validation, p, true⟩) ∧
    (∀ (ra : HTTPReaderAt) (p : List Byte) (off : Int) (resp : Response) (m : Meta),
      p ≠ [] →
      ra.meta.size ≠ -1 → off + (p.length : Int) - 1 > ra.meta.size - 1 →
      ¬(ra.meta.size - 1 < off) →
      ra.client off (ra.meta.size - 1) = some resp →
      resp.statusCode = 206 → getMeta resp = .ok m →
      (ra.meta.size ≠ m.size ∨ ra.meta.lastModified ≠ m.lastModified ∨
        ra.meta.etag ≠ m.etag) →
      ra.ReadAt p off = ⟨0, some .validation, p, true⟩) ∧
    (∀ (content : List Byte) (lm et1 et2 ct : String),
      2 ≤ content.length → (content.length : Int) ≤ 2 ^ 63 - 1 → et1 ≠ et2 →
      Do (mutatingClient content lm et1 et2 ct) = .fail .validation) := by
  refine ⟨?_, ?_, ?_⟩
  · intro ra p off resp m hne hnc hreq h206 hgm hmis
    have hlen : p.length ≠ 0 := fun h => hne (List.length_eq_zero.mp h)
    unfold HTTPReaderAt.ReadAt
    dsimp only
    rw [if_neg hlen, if_neg hnc]
    exact doRangeRequest_validation ra p off _ none resp m hreq h206 hgm hmis
  · intro ra p off resp m hne hk1 hk2 hk3 hreq h206 hgm hmis
    have hlen : p.length ≠ 0 := fun h => hne (List.length_eq_zero.mp h)
    unfold HTTPReaderAt.ReadAt
    dsimp only
    rw [if_neg hlen, if_pos ⟨hk1, hk2⟩, if_neg hk3,
      doRangeRequest_validation ra _ off (ra.meta.size - 1) (some .eof) resp m hreq
        h206 hgm hmis]
    dsimp only
    rw [List.take_append_drop]
  · intro content lm et1 et2 ct h2 hT hetag
    exact Do_mutating content lm et1 et2 ct h2 hT hetag

/-- C4 witness: a changed ETag on the unclamped path, on the clamped
path, and through a whole buffer-mode download, at concrete inputs. -/
theorem metadata_change_validation_error_witness :
    (HTTPReaderAt.mk (fun _ _ => some ⟨206, 1, "bytes 1-1/10", "L", "E2", "C", [9]⟩)
        ⟨0, 0, 10, "L", "E", "C"⟩).ReadAt [0] 1 = ⟨0, some .validation, [0], true⟩ ∧
    (HTTPReaderAt.mk (fun _ _ => some ⟨206, 2, "bytes 1-2/3", "L", "E2", "C", [1, 2]⟩)
        ⟨0, 0, 3, "L", "E", "C"⟩).ReadAt [0, 0, 0] 1 =
      ⟨0, some .validation, [0, 0, 0], true⟩ ∧
    Do (mutatingClient [1, 2] "L" "E1" "E2" "C") = .fail .validation :=
  ⟨metadata_change_validation_error.1 _ [0] 1
      ⟨206, 1, "bytes 1-1/10", "L", "E2", "C", [9]⟩ ⟨1, 1, 10, "L", "E2", "C"⟩
      (by decide) (by decide) rfl rfl rfl (by decide),
   metadata_change_validation_error.2.1 _ [0, 0, 0] 1
      ⟨206, 2, "bytes 1-2/3", "L", "E2", "C", [1, 2]⟩ ⟨1, 2, 3, "L", "E2", "C"⟩
      (by decide) (by decide) (by decide) (by decide) rfl rfl rfl (by decide),
   metadata_change_validation_error.2.2 [1, 2] "L" "E1" "E2" "C"
      (by decide) (by decide) (by decide)⟩

/-- C1: over a transport that honors Range requests with stable metadata,
the buffer-mode download returns a buffer equal to the whole resource,
which is also what the byte-for-byte concatenation of sequential
single-shot ReadAt calls covering the resource produces, for any
partition of [0, T) into ordered windows. -/
theorem do_buffer_equals_sequential_reads :
    ∀ (content : List Byte) (lm et ct : String) (sizes : List Nat),
      content ≠ [] → (content.length : Int) ≤ 2 ^ 63 - 1 →
      (∀ s ∈ sizes, 0 < s) → sizes.sum = content.length →
      ∃ ra, New (honestClient content lm et ct) = .ok ra ∧
        Do (honestClient content lm et ct) = .ok content ∧
        seqReadsFrom ra 0 sizes = some content := by
  intro content lm et ct sizes h1 hT hall hsum
  refine ⟨_, New_honest content lm et ct h1 hT,
    Do_honest content lm et ct h1 hT, ?_⟩
  have h := seqReadsFrom_honest content lm et ct
    ⟨honestClient content lm et ct, ⟨0, 0, (content.length : Int), lm, et, ct⟩⟩
    rfl rfl rfl rfl hT sizes 0 hall (by omega)
  simpa using h

/-- C1 witness: a 3-byte resource downloaded whole equals the
concatenation of sequential reads of sizes 2 and 1. -/
theorem do_buffer_equals_sequential_reads_witness :
    ∃ ra, New (honestClient [7, 8, 9] "L" "E" "C") = .ok ra ∧
      Do (honestClient [7, 8, 9] "L" "E" "C") = .ok [7, 8, 9] ∧
      seqReadsFrom ra 0 [2, 1] = some [7, 8, 9] :=
  do_buffer_equals_sequential_reads [7, 8, 9] "L" "E" "C" [2, 1] (by decide) (by decide)
    (by decide) (by decide)

/-- Membership in the file-task plan: a full chunk at some index below
floor(m/65536), or the trailing remainder chunk when m is not a multiple. -/
lemma planFile_mem (m : Nat) (t : FileTask) :
    (t ∈ ((List.range (m / 65536)).map fun (i : Nat) =>
        FileTask.mk (65536 * (i : Int)) 65536) ++
      (if m % 65536 = 0 then []
       else [FileTask.mk (65536 * ((m / 65536 : Nat) : Int)) ((m % 65536 : Nat) : Int)])) ↔
    ((∃ i, i < m / 65536 ∧ t = FileTask.mk (65536 * (i : Int)) 65536) ∨
      (m % 65536 ≠ 0 ∧
        t = FileTask.mk (65536 * ((m / 65536 : Nat) : Int)) ((m % 65536 : Nat) : Int))) := by
  constructor
  · intro h
    rcases List.mem_append.mp h with h | h
    · obtain ⟨i, hi, rfl⟩ := List.mem_map.mp h
      exact Or.inl ⟨i, List.mem_range.mp hi, rfl⟩
    · by_cases hr : m % 65536 = 0
      · rw [if_pos hr] at h
        simp at h
      · rw [if_neg hr] at h
        simp at h
        exact Or.inr ⟨hr, h⟩
  · intro h
    rcases h with ⟨i, hi, rfl⟩ | ⟨hr, rfl⟩
    · exact List.mem_append_left _ (List.mem_map.mpr ⟨i, List.mem_range.mpr hi, rfl⟩)
    · exact List.mem_append_right _ (by rw [if_neg hr]; exact List.mem_singleton_self _)

/-- The plan's task ranges are pairwise disjoint. -/
lemma planFile_pairwise (m : Nat) :
    (((List.range (m / 65536)).map fun (i : Nat) =>
        FileTask.mk (65536 * (i : Int)) 65536) ++
      (if m % 65536 = 0 then []
       else [FileTask.mk (65536 * ((m / 65536 : Nat) : Int))
              ((m % 65536 : Nat) : Int)])).Pairwise
      (fun a b => ∀ x : Int, ¬(a.offset ≤ x ∧ x < a.offset + a.size ∧
        b.offset ≤ x ∧ x < b.offset + b.size)) := by
  rw [List.pairwise_append]
  refine ⟨?_, ?_, ?_⟩
  · rw [List.pairwise_map]
    have hlt := List.pairwise_lt_range (m / 65536)
    apply hlt.imp_of_mem
    intro i j hi hj hij x hx
    simp only at hx
    omega
  · by_cases hr : m % 65536 = 0
    · rw [if_pos hr]
      exact List.Pairwise.nil
    · rw [if_neg hr]
      simp
  · intro a ha b hb x hx
    obtain ⟨i, hi, rfl⟩ := List.mem_map.mp ha
    have hilt : i < m / 65536 := List.mem_range.mp hi
    by_cases hr : m % 65536 = 0
    · rw [if_pos hr] at hb
      simp at hb
    · rw [if_neg hr] at hb
      simp only [List.mem_singleton] at hb
      subst hb
      simp only at hx
      have hmod : m % 65536 < 65536 := Nat.mod_lt _ (by norm_num)
      omega

/-- The plan's task ranges cover exactly the interval from 0 to m. -/
lemma planFile_coverage (m : Nat) (x : Int) :
    (0 ≤ x ∧ x < (m : Int)) ↔
    ∃ t ∈ ((List.range (m / 65536)).map fun (i : Nat) =>
        FileTask.mk (65536 * (i : Int)) 65536) ++
      (if m % 65536 = 0 then []
       else [FileTask.mk (65536 * ((m / 65536 : Nat) : Int)) ((m % 65536 : Nat) : Int)]),
      t.offset ≤ x ∧ x < t.offset + t.size := by
  constructor
  · rintro ⟨hx0, hxm⟩
    by_cases hi : x.toNat / 65536 < m / 65536
    · refine ⟨FileTask.mk (65536 * ((x.toNat / 65536 : Nat) : Int)) 65536,
        (planFile_mem m _).mpr (Or.inl ⟨x.toNat / 65536, hi, rfl⟩), ?_, ?_⟩
      · simp only
        omega
      · simp only
        omega
    · have hr : m % 65536 ≠ 0 := by omega
      refine ⟨FileTask.mk (65536 * ((m / 65536 : Nat) : Int)) ((m % 65536 : Nat) : Int),
        (planFile_mem m _).mpr (Or.inr ⟨hr, rfl⟩), ?_, ?_⟩
      · simp only
        omega
      · simp only
        omega
  · rintro ⟨t, ht, hb1, hb2⟩
    rcases (planFile_mem m t).mp ht with ⟨i, hi, rfl⟩ | ⟨hr, rfl⟩
    · simp only at hb1 hb2
      have : 65536 * (i + 1) ≤ m := by
        calc 65536 * (i + 1) ≤ 65536 * (m / 65536) := Nat.mul_le_mul_left _ hi
          _ ≤ m := by omega
      omega
    · simp only at hb1 hb2
      omega

/-- The memory-task plan and the file-task plan describe the same
(offset, size) chunks. -/
lemma plans_agree (m : Nat) (buf : List Byte) (hb : buf.length = m) :
    (((List.range (m / 65536)).map fun (i : Nat) =>
        MemoryTask.mk (65536 * (i : Int)) ((buf.drop (65536 * i)).take 65536)) ++
      (if m % 65536 = 0 then []
       else [MemoryTask.mk (65536 * ((m / 65536 : Nat) : Int))
              ((buf.drop (65536 * (m / 65536))).take (m % 65536))])).map
        (fun t => (t.offset, (t.content.length : Int))) =
    (((List.range (m / 65536)).map fun (i : Nat) =>
        FileTask.mk (65536 * (i : Int)) 65536) ++
      (if m % 65536 = 0 then []
       else [FileTask.mk (65536 * ((m / 65536 : Nat) : Int))
              ((m % 65536 : Nat) : Int)])).map
        (fun t => (t.offset, t.size)) := by
  rw [List.map_append, List.map_append]
  congr 1
  · rw [List.map_map, List.map_map]
    apply List.map_congr_left
    intro i hi
    have hilt : i < m / 65536 := List.mem_range.mp hi
    have hib : 65536 * (i + 1) ≤ m := by
      calc 65536 * (i + 1) ≤ 65536 * (m / 65536) := Nat.mul_le_mul_left _ hilt
        _ ≤ m := by omega
    have hlen : ((buf.drop (65536 * i)).take 65536).length = 65536 := by
      rw [List.length_take, List.length_drop, hb]
      omega
    show (65536 * (i : Int), (((buf.drop (65536 * i)).take 65536).length : Int)) = _
    rw [hlen]
    norm_num
  · by_cases hr : m % 65536 = 0
    · rw [if_pos hr, if_pos hr]
      rfl
    · rw [if_neg hr, if_neg hr]
      have hlen : ((buf.drop (65536 * (m / 65536))).take (m % 65536)).length =
          m % 65536 := by
        rw [List.length_take, List.length_drop, hb]
        omega
      simp only [List.map_cons, List.map_nil]
      rw [hlen]

/-- C2: for T at least 0 and chunk size 64 KiB both planners succeed,
produce the same (offset, size) chunks, namely floor(T/65536) full chunks
at offsets 0, 65536, 131072, ... followed by one chunk of size T mod
65536 exactly when T is not a multiple, and these chunk ranges are
pairwise disjoint with union exactly the interval from 0 to T. -/
theorem chunk_planner_partitions :
    ∀ (T : Int) (buf : List Byte), 0 ≤ T → (buf.length : Int) = T →
    ∃ ft mem,
      makeFileTask T = some ft ∧
      makeMemoryTask T buf = some mem ∧
      mem.map (fun t => (t.offset, (t.content.length : Int))) =
        ft.map (fun t => (t.offset, t.size)) ∧
      ft = ((List.range (T.toNat / 65536)).map fun (i : Nat) =>
          FileTask.mk (65536 * (i : Int)) 65536) ++
        (if T.toNat % 65536 = 0 then []
         else [FileTask.mk (65536 * ((T.toNat / 65536 : Nat) : Int))
                ((T.toNat % 65536 : Nat) : Int)]) ∧
      ft.Pairwise (fun a b => ∀ x : Int, ¬(a.offset ≤ x ∧ x < a.offset + a.size ∧
        b.offset ≤ x ∧ x < b.offset + b.size)) ∧
      (∀ x : Int, (0 ≤ x ∧ x < T) ↔
        ∃ t ∈ ft, t.offset ≤ x ∧ x < t.offset + t.size) := by
  intro T buf hT hlen
  obtain ⟨m, rfl⟩ := Int.eq_ofNat_of_zero_le hT
  have hb : buf.length = m := by exact_mod_cast hlen
  have htn : ((m : Int)).toNat = m := Int.toNat_natCast _
  simp only [htn]
  exact ⟨_, _, makeFileTask_nat m, makeMemoryTask_nat m buf hb, plans_agree m buf hb,
    rfl, planFile_pairwise m, fun x => planFile_coverage m x⟩

/-- C2 witness: the partition at T = 131077 (two full chunks and a 5-byte
trailing chunk). -/
theorem chunk_planner_partitions_witness :
    ∃ ft mem,
      makeFileTask 131077 = some ft ∧
      makeMemoryTask 131077 (List.replicate 131077 0) = some mem ∧
      mem.map (fun t => (t.offset, (t.content.length : Int))) =
        ft.map (fun t => (t.offset, t.size)) ∧
      ft = ((List.range ((131077 : Int).toNat / 65536)).map fun (i : Nat) =>
          FileTask.mk (65536 * (i : Int)) 65536) ++
        (if (131077 : Int).toNat % 65536 = 0 then []
         else [FileTask.mk (65536 * (((131077 : Int).toNat / 65536 : Nat) : Int))
                (((131077 : Int).toNat % 65536 : Nat) : Int)]) ∧
      ft.Pairwise (fun a b => ∀ x : Int, ¬(a.offset ≤ x ∧ x < a.offset + a.size ∧
        b.offset ≤ x ∧ x < b.offset + b.size)) ∧
      (∀ x : Int, (0 ≤ x ∧ x < 131077) ↔
        ∃ t ∈ ft, t.offset ≤ x ∧ x < t.offset + t.size) :=
  chunk_planner_partitions 131077 (List.replicate 131077 0) (by decide)
    (by rw [List.length_replicate]; rfl)
